import Mathlib

/-!
Verification of the hydraulic-erosion simulator (heightmap generation,
gradient, deposition, disc erosion, droplet loop) against its design
specification.  The C source is shallowly embedded: `double` arithmetic is
modelled by exact rationals `ℚ` (and by `ℝ` where the source calls `sqrt`),
the flat row-major heightmap by a function `ℤ → ℚ` together with its
width/height, and the C `(int)` cast by truncation toward zero.
-/

/-- Model of the C macro `EPSILON` (`0.00001`). -/
def EPSILON : ℚ := 1 / 100000

/-- 2D vector of doubles (`vec2` in the source), modelled over `ℚ`. -/
structure Vec2 where
  x : ℚ
  y : ℚ
deriving DecidableEq, Repr

/-- C `(int)` cast of a `double`: truncation toward zero. -/
def ctrunc (q : ℚ) : ℤ := if q < 0 then ⌈q⌉ else ⌊q⌋

/-- The `H` macro: flat row-major read `*(h + y*w + x)`. -/
def Hget (h : ℤ → ℚ) (w x y : ℤ) : ℚ := h (y * w + x)

/-- In-place `H(h,w,x,y) += v`: pointwise update of the flat heightmap. -/
def hmAdd (h : ℤ → ℚ) (w x y : ℤ) (v : ℚ) : ℤ → ℚ :=
  fun i => if i = y * w + x then h i + v else h i

/-- Total height of the grid: the sum of the `width*height` flat cells. -/
def gridTotal (w ht : ℤ) (h : ℤ → ℚ) : ℚ := ∑ i ∈ Finset.Ico (0 : ℤ) (w * ht), h i

/-- `compute_gradient_central`: central differences, with a boundary guard
that compares both axes against `w` and returns `(0,0)` near the border. -/
def compute_gradient_central (w : ℤ) (h : ℤ → ℚ) (pos : Vec2) : Vec2 :=
  let x := ctrunc pos.x
  let y := ctrunc pos.y
  if x < 1 ∨ x ≥ w - 1 ∨ y < 1 ∨ y ≥ w - 1 then ⟨0, 0⟩
  else
    ⟨(Hget h w (x + 1) y - Hget h w (x - 1) y) * (1 / 2),
     (Hget h w x (y + 1) - Hget h w x (y - 1)) * (1 / 2)⟩

/-- `compute_gradient`: the fixed `u = v = 0.5` blend of forward
differences; no boundary check is performed. -/
def compute_gradient (w : ℤ) (h : ℤ → ℚ) (pos : Vec2) : Vec2 :=
  let x := ctrunc pos.x
  let y := ctrunc pos.y
  let u : ℚ := 1 / 2
  let v : ℚ := 1 / 2
  ⟨(Hget h w (x + 1) y - Hget h w x y) * (1 - v) +
     (Hget h w (x + 1) (y + 1) - Hget h w x (y + 1)) * v,
   (Hget h w x (y + 1) - Hget h w x y) * (1 - u) +
     (Hget h w (x + 1) (y + 1) - Hget h w (x + 1) y) * u⟩

/-- Droplet state (`struct drop`). -/
structure Drop where
  position : Vec2
  direction : Vec2
  lifetime : ℤ
  velocity : ℚ
  water : ℚ
  sediment : ℚ
deriving Repr

/-- `verify_drop_pos`: the truncated coordinates must lie in the strict
interior, `0 < x < width-1` on the x axis and `0 < y < height-1` on the
y axis. -/
def verify_drop_pos (d : Drop) (width height : ℤ) : Bool :=
  let x := ctrunc d.position.x
  let y := ctrunc d.position.y
  decide (0 < x ∧ x < width - 1 ∧ 0 < y ∧ y < height - 1)

section Basic

theorem ctrunc_of_nonneg (q : ℚ) (h : 0 ≤ q) : ctrunc q = ⌊q⌋ := by
  unfold ctrunc
  rw [if_neg (not_lt.mpr h)]

theorem ctrunc_le_self (q : ℚ) (h : 0 ≤ q) : (ctrunc q : ℚ) ≤ q := by
  rw [ctrunc_of_nonneg q h]
  exact Int.floor_le q

theorem lt_ctrunc_add_one (q : ℚ) (h : 0 ≤ q) : q < (ctrunc q : ℚ) + 1 := by
  rw [ctrunc_of_nonneg q h]
  exact Int.lt_floor_add_one q

theorem ctrunc_nonneg (q : ℚ) (h : 0 ≤ q) : 0 ≤ ctrunc q := by
  rw [ctrunc_of_nonneg q h]
  exact Int.floor_nonneg.mpr h

end Basic

/-- C9: `verify_drop_pos` holds exactly when the truncated coordinates lie
in the strict per-axis interior: `0 < ⌊x⌋ < width - 1` using the grid's
width, and `0 < ⌊y⌋ < height - 1` using its height, so the two axes are
bounded independently even for non-square grids. -/
theorem verify_drop_pos_iff (d : Drop) (width height : ℤ) :
    verify_drop_pos d width height = true ↔
      (0 < ctrunc d.position.x ∧ ctrunc d.position.x < width - 1 ∧
       0 < ctrunc d.position.y ∧ ctrunc d.position.y < height - 1) := by
  unfold verify_drop_pos
  simp

/-- C2 counterexample: `compute_gradient` (the gradient actually used by
`simulate_drop`) performs no boundary check.  On a 4-wide ramp grid the
position `(0.5, 1.5)` has truncated `x = 0`, within 1 cell of the
boundary, yet the computed gradient is `(1, 0)`, not `(0, 0)`. -/
theorem compute_gradient_boundary_counterexample :
    compute_gradient 4 (fun i => (i : ℚ)) ⟨1 / 2, 3 / 2⟩ ≠ ⟨0, 0⟩ := by
  have hx : ctrunc (1 / 2 : ℚ) = 0 := by norm_num [ctrunc]
  have hy : ctrunc (3 / 2 : ℚ) = 1 := by norm_num [ctrunc]
  norm_num [compute_gradient, Hget, hx, hy, Vec2.mk.injEq]

/-- C2 (amended): the central-difference variant `compute_gradient_central`
returns `(0,0)` whenever the truncated `x` or `y` is within 1 cell of the
`[0, w-1]` index range, with the grid's width `w` bounding both axes. -/
theorem compute_gradient_central_boundary_zero (w : ℤ) (h : ℤ → ℚ) (pos : Vec2)
    (hb : ctrunc pos.x < 1 ∨ ctrunc pos.x ≥ w - 1 ∨
          ctrunc pos.y < 1 ∨ ctrunc pos.y ≥ w - 1) :
    compute_gradient_central w h pos = ⟨0, 0⟩ := by
  unfold compute_gradient_central
  rw [if_pos hb]

/-- Concrete instance of `compute_gradient_central_boundary_zero`. -/
theorem compute_gradient_central_boundary_zero_witness :
    compute_gradient_central 4 (fun i => ((i % 4 : ℤ) : ℚ)) ⟨1 / 2, 3 / 2⟩ = ⟨0, 0⟩ :=
  compute_gradient_central_boundary_zero 4 (fun i => ((i % 4 : ℤ) : ℚ)) ⟨1 / 2, 3 / 2⟩
    (Or.inl (by norm_num [ctrunc]))

/-- C8: `compute_gradient` is the fixed 0.5/0.5 blend of forward
differences at the truncated cell `(x, y)`; it depends only on the
truncated cell, never on the fractional part of the position; and on any
grid satisfying `h(x, y) = x` it returns `(1, 0)` at every interior
cell. -/
theorem compute_gradient_blend_props :
    (∀ (w : ℤ) (h : ℤ → ℚ) (pos : Vec2),
      compute_gradient w h pos =
        ⟨(Hget h w (ctrunc pos.x + 1) (ctrunc pos.y) - Hget h w (ctrunc pos.x) (ctrunc pos.y)) * (1 / 2) +
           (Hget h w (ctrunc pos.x + 1) (ctrunc pos.y + 1) - Hget h w (ctrunc pos.x) (ctrunc pos.y + 1)) * (1 / 2),
         (Hget h w (ctrunc pos.x) (ctrunc pos.y + 1) - Hget h w (ctrunc pos.x) (ctrunc pos.y)) * (1 / 2) +
           (Hget h w (ctrunc pos.x + 1) (ctrunc pos.y + 1) - Hget h w (ctrunc pos.x + 1) (ctrunc pos.y)) * (1 / 2)⟩) ∧
    (∀ (w : ℤ) (h : ℤ → ℚ) (p q : Vec2),
      ctrunc p.x = ctrunc q.x → ctrunc p.y = ctrunc q.y →
      compute_gradient w h p = compute_gradient w h q) ∧
    (∀ (w : ℤ) (h : ℤ → ℚ) (pos : Vec2),
      (∀ x y : ℤ, 0 ≤ x → x < w → h (y * w + x) = (x : ℚ)) →
      0 ≤ ctrunc pos.x → ctrunc pos.x + 1 < w →
      compute_gradient w h pos = ⟨1, 0⟩) := by
  refine ⟨fun w h pos => ?_, fun w h p q hx hy => ?_, fun w h pos hramp hx0 hx1 => ?_⟩
  · unfold compute_gradient
    norm_num
  · unfold compute_gradient
    rw [hx, hy]
  · have h1 : h (ctrunc pos.y * w + (ctrunc pos.x + 1)) = ((ctrunc pos.x + 1 : ℤ) : ℚ) :=
      hramp (ctrunc pos.x + 1) (ctrunc pos.y) (by omega) hx1
    have h2 : h (ctrunc pos.y * w + ctrunc pos.x) = ((ctrunc pos.x : ℤ) : ℚ) :=
      hramp (ctrunc pos.x) (ctrunc pos.y) hx0 (by omega)
    have h3 : h ((ctrunc pos.y + 1) * w + (ctrunc pos.x + 1)) = ((ctrunc pos.x + 1 : ℤ) : ℚ) :=
      hramp (ctrunc pos.x + 1) (ctrunc pos.y + 1) (by omega) hx1
    have h4 : h ((ctrunc pos.y + 1) * w + ctrunc pos.x) = ((ctrunc pos.x : ℤ) : ℚ) :=
      hramp (ctrunc pos.x) (ctrunc pos.y + 1) hx0 (by omega)
    simp only [compute_gradient, Hget, h1, h2, h3, h4, Vec2.mk.injEq]
    push_cast
    constructor
    · ring
    · ring

/-- Concrete instance of `compute_gradient_blend_props`: on the 4-wide ramp
grid the gradient at the interior point `(2.5, 1.5)` is `(1, 0)`. -/
theorem compute_gradient_blend_props_witness :
    compute_gradient 4 (fun i => ((i % 4 : ℤ) : ℚ)) ⟨5 / 2, 3 / 2⟩ = ⟨1, 0⟩ :=
  compute_gradient_blend_props.2.2 4 (fun i => ((i % 4 : ℤ) : ℚ)) ⟨5 / 2, 3 / 2⟩
    (fun x y hx0 hxw => by
      have hmod : (y * 4 + x) % 4 = x := by omega
      simp [hmod])
    (by norm_num [ctrunc]) (by norm_num [ctrunc])

/-- One guarded bilinear add of `simulate_deposition`: the C code adds
`dropped = to_drop * w` to the cell and to `sum_dropped` only when
`to_drop * w > 0.0`.  The state is the pair (heightmap, sum_dropped). -/
def depoStep (w x y : ℤ) (amt : ℚ) (st : (ℤ → ℚ) × ℚ) : (ℤ → ℚ) × ℚ :=
  if amt > 0 then (hmAdd st.1 w x y amt, st.2 + amt) else st

/-- `simulate_deposition`: bilinear weights at the truncated cell, clamped
second cell via `min`, early return `0` when the weight sum is `≤ EPSILON`,
then renormalized weights applied through the four guarded adds in source
order `(x1,y1), (x1,y2), (x2,y1), (x2,y2)`. -/
def simulate_deposition (width height : ℤ) (h : ℤ → ℚ) (pos : Vec2) (to_drop : ℚ) :
    (ℤ → ℚ) × ℚ :=
  let x1 := ctrunc pos.x
  let y1 := ctrunc pos.y
  let x2 := min (x1 + 1) (width - 1)
  let y2 := min (y1 + 1) (height - 1)
  let dx := pos.x - (x1 : ℚ)
  let dy := pos.y - (y1 : ℚ)
  let w11 := (1 - dx) * (1 - dy)
  let w12 := (1 - dx) * dy
  let w21 := dx * (1 - dy)
  let w22 := dx * dy
  let sum_w := w11 + w12 + w21 + w22
  if sum_w ≤ EPSILON then (h, 0)
  else
    depoStep width x2 y2 (to_drop * (w22 / sum_w))
      (depoStep width x2 y1 (to_drop * (w21 / sum_w))
        (depoStep width x1 y2 (to_drop * (w12 / sum_w))
          (depoStep width x1 y1 (to_drop * (w11 / sum_w)) (h, 0))))

theorem gridTotal_hmAdd (w ht x y : ℤ) (h : ℤ → ℚ) (v : ℚ)
    (hx0 : 0 ≤ x) (hx1 : x < w) (hy0 : 0 ≤ y) (hy1 : y < ht) :
    gridTotal w ht (hmAdd h w x y v) = gridTotal w ht h + v := by
  have hw : 0 < w := lt_of_le_of_lt hx0 hx1
  have hmem : y * w + x ∈ Finset.Ico (0 : ℤ) (w * ht) := by
    rw [Finset.mem_Ico]
    constructor
    · have := mul_nonneg hy0 (le_of_lt hw)
      linarith
    · have h1 : y * w ≤ (ht - 1) * w :=
        mul_le_mul_of_nonneg_right (by omega) (le_of_lt hw)
      nlinarith
  unfold gridTotal hmAdd
  calc ∑ i ∈ Finset.Ico (0 : ℤ) (w * ht), (if i = y * w + x then h i + v else h i)
      = ∑ i ∈ Finset.Ico (0 : ℤ) (w * ht), (h i + if i = y * w + x then v else 0) := by
        refine Finset.sum_congr rfl fun i _ => ?_
        split <;> simp
    _ = (∑ i ∈ Finset.Ico (0 : ℤ) (w * ht), h i) +
          ∑ i ∈ Finset.Ico (0 : ℤ) (w * ht), (if i = y * w + x then v else 0) :=
        Finset.sum_add_distrib
    _ = (∑ i ∈ Finset.Ico (0 : ℤ) (w * ht), h i) + v := by
        rw [Finset.sum_ite_eq' _ (y * w + x) (fun _ => v), if_pos hmem]

theorem depoStep_spec (w ht x y : ℤ) (td wt : ℚ) (st : (ℤ → ℚ) × ℚ)
    (hw : 0 ≤ wt) (htd : 0 < td)
    (hx0 : 0 ≤ x) (hx1 : x < w) (hy0 : 0 ≤ y) (hy1 : y < ht) :
    gridTotal w ht (depoStep w x y (td * wt) st).1 = gridTotal w ht st.1 + td * wt ∧
    (depoStep w x y (td * wt) st).2 = st.2 + td * wt := by
  unfold depoStep
  rcases lt_or_eq_of_le hw with hpos | hzero
  · rw [if_pos (mul_pos htd hpos)]
    exact ⟨gridTotal_hmAdd w ht x y st.1 (td * wt) hx0 hx1 hy0 hy1, rfl⟩
  · rw [if_neg (by rw [← hzero, mul_zero]; exact lt_irrefl 0)]
    rw [← hzero, mul_zero, add_zero, add_zero]
    exact ⟨rfl, rfl⟩

/-- At a position with nonnegative coordinates whose four bilinear target
cells are in-bounds, a strictly positive deposition places exactly
`to_drop` on the grid and reports exactly `to_drop`: the four bilinear
weights sum to `1` identically, so the renormalization divides by `1` and
the guarded adds skip only weights that are exactly `0`. -/
theorem simulate_deposition_adds (width height : ℤ) (h : ℤ → ℚ) (pos : Vec2) (td : ℚ)
    (hx0 : 0 ≤ pos.x) (hy0 : 0 ≤ pos.y)
    (hxw : ctrunc pos.x + 1 ≤ width - 1) (hyh : ctrunc pos.y + 1 ≤ height - 1)
    (htd : 0 < td) :
    (simulate_deposition width height h pos td).2 = td ∧
    gridTotal width height (simulate_deposition width height h pos td).1 =
      gridTotal width height h + td := by
  have hX0 : 0 ≤ ctrunc pos.x := ctrunc_nonneg pos.x hx0
  have hY0 : 0 ≤ ctrunc pos.y := ctrunc_nonneg pos.y hy0
  have hdx0 : 0 ≤ pos.x - (ctrunc pos.x : ℚ) := by
    have := ctrunc_le_self pos.x hx0
    linarith
  have hdx1 : pos.x - (ctrunc pos.x : ℚ) < 1 := by
    have := lt_ctrunc_add_one pos.x hx0
    linarith
  have hdy0 : 0 ≤ pos.y - (ctrunc pos.y : ℚ) := by
    have := ctrunc_le_self pos.y hy0
    linarith
  have hdy1 : pos.y - (ctrunc pos.y : ℚ) < 1 := by
    have := lt_ctrunc_add_one pos.y hy0
    linarith
  simp only [simulate_deposition]
  set X := ctrunc pos.x with hXdef
  set Y := ctrunc pos.y with hYdef
  set dx := pos.x - (X : ℚ) with hdxdef
  set dy := pos.y - (Y : ℚ) with hdydef
  have hsum : (1 - dx) * (1 - dy) + (1 - dx) * dy + dx * (1 - dy) + dx * dy = 1 := by
    ring
  rw [hsum, min_eq_left hxw, min_eq_left hyh,
    if_neg (by norm_num [EPSILON] : ¬((1 : ℚ) ≤ EPSILON))]
  simp only [div_one]
  obtain ⟨t1, s1⟩ := depoStep_spec width height X Y td ((1 - dx) * (1 - dy)) (h, 0)
    (mul_nonneg (by linarith) (by linarith)) htd hX0 (by omega) hY0 (by omega)
  obtain ⟨t2, s2⟩ := depoStep_spec width height X (Y + 1) td ((1 - dx) * dy)
    (depoStep width X Y (td * ((1 - dx) * (1 - dy))) (h, 0))
    (mul_nonneg (by linarith) hdy0) htd hX0 (by omega) (by omega) (by omega)
  obtain ⟨t3, s3⟩ := depoStep_spec width height (X + 1) Y td (dx * (1 - dy))
    (depoStep width X (Y + 1) (td * ((1 - dx) * dy))
      (depoStep width X Y (td * ((1 - dx) * (1 - dy))) (h, 0)))
    (mul_nonneg hdx0 (by linarith)) htd (by omega) (by omega) hY0 (by omega)
  obtain ⟨t4, s4⟩ := depoStep_spec width height (X + 1) (Y + 1) td (dx * dy)
    (depoStep width (X + 1) Y (td * (dx * (1 - dy)))
      (depoStep width X (Y + 1) (td * ((1 - dx) * dy))
        (depoStep width X Y (td * ((1 - dx) * (1 - dy))) (h, 0))))
    (mul_nonneg hdx0 hdy0) htd (by omega) (by omega) (by omega) (by omega)
  constructor
  · rw [s4, s3, s2, s1]
    show 0 + td * ((1 - dx) * (1 - dy)) + td * ((1 - dx) * dy) +
        td * (dx * (1 - dy)) + td * (dx * dy) = td
    linear_combination td * hsum
  · rw [t4, t3, t2, t1]
    show gridTotal width height h + td * ((1 - dx) * (1 - dy)) + td * ((1 - dx) * dy) +
        td * (dx * (1 - dy)) + td * (dx * dy) = gridTotal width height h + td
    linear_combination td * hsum

/-- At a position with nonnegative coordinates, a non-positive `to_drop`
fails every guard `to_drop * w > 0` (the four weights are nonnegative
there), so the call mutates nothing and returns `0`. -/
theorem simulate_deposition_nonpos (width height : ℤ) (h : ℤ → ℚ) (pos : Vec2) (td : ℚ)
    (hx0 : 0 ≤ pos.x) (hy0 : 0 ≤ pos.y) (htd : td ≤ 0) :
    simulate_deposition width height h pos td = (h, 0) := by
  have hdx0 : 0 ≤ pos.x - (ctrunc pos.x : ℚ) := by
    have := ctrunc_le_self pos.x hx0
    linarith
  have hdx1 : pos.x - (ctrunc pos.x : ℚ) < 1 := by
    have := lt_ctrunc_add_one pos.x hx0
    linarith
  have hdy0 : 0 ≤ pos.y - (ctrunc pos.y : ℚ) := by
    have := ctrunc_le_self pos.y hy0
    linarith
  have hdy1 : pos.y - (ctrunc pos.y : ℚ) < 1 := by
    have := lt_ctrunc_add_one pos.y hy0
    linarith
  simp only [simulate_deposition, depoStep]
  set X := ctrunc pos.x with hXdef
  set Y := ctrunc pos.y with hYdef
  set dx := pos.x - (X : ℚ) with hdxdef
  set dy := pos.y - (Y : ℚ) with hdydef
  have hsum : (1 - dx) * (1 - dy) + (1 - dx) * dy + dx * (1 - dy) + dx * dy = 1 := by
    ring
  have w11nn : 0 ≤ (1 - dx) * (1 - dy) := mul_nonneg (by linarith) (by linarith)
  have w12nn : 0 ≤ (1 - dx) * dy := mul_nonneg (by linarith) hdy0
  have w21nn : 0 ≤ dx * (1 - dy) := mul_nonneg hdx0 (by linarith)
  have w22nn : 0 ≤ dx * dy := mul_nonneg hdx0 hdy0
  have k11 : ¬(td * ((1 - dx) * (1 - dy)) > 0) := by nlinarith [w11nn]
  have k12 : ¬(td * ((1 - dx) * dy) > 0) := by nlinarith [w12nn]
  have k21 : ¬(td * (dx * (1 - dy)) > 0) := by nlinarith [w21nn]
  have k22 : ¬(td * (dx * dy) > 0) := by nlinarith [w22nn]
  rw [hsum, if_neg (by norm_num [EPSILON] : ¬((1 : ℚ) ≤ EPSILON))]
  simp only [div_one]
  rw [if_neg k11, if_neg k12, if_neg k21, if_neg k22]

/-- C3: at an in-bounds position with all four bilinear neighbor cells
in-bounds and a strictly positive amount, `simulate_deposition` returns
the amount (here exactly, hence within the 1e-9 tolerance), and the total
grid height increases by exactly the returned value; no clamping occurs. -/
theorem simulate_deposition_mass_conservation (width height : ℤ) (h : ℤ → ℚ)
    (pos : Vec2) (amount : ℚ)
    (hx0 : 0 ≤ pos.x) (hy0 : 0 ≤ pos.y)
    (hxw : ctrunc pos.x + 1 ≤ width - 1) (hyh : ctrunc pos.y + 1 ≤ height - 1)
    (hamt : 0 < amount) :
    |(simulate_deposition width height h pos amount).2 - amount| ≤ 1 / 1000000000 ∧
    gridTotal width height (simulate_deposition width height h pos amount).1 =
      gridTotal width height h + (simulate_deposition width height h pos amount).2 := by
  obtain ⟨hret, htot⟩ :=
    simulate_deposition_adds width height h pos amount hx0 hy0 hxw hyh hamt
  refine ⟨?_, ?_⟩
  · rw [hret]
    norm_num
  · rw [htot, hret]

/-- Concrete instance of `simulate_deposition_mass_conservation` on a 4x4
zero grid at position `(1.5, 1.5)` with amount `1`. -/
theorem simulate_deposition_mass_conservation_witness :
    |(simulate_deposition 4 4 (fun _ => 0) ⟨3 / 2, 3 / 2⟩ 1).2 - 1| ≤ 1 / 1000000000 ∧
    gridTotal 4 4 (simulate_deposition 4 4 (fun _ => 0) ⟨3 / 2, 3 / 2⟩ 1).1 =
      gridTotal 4 4 (fun _ => 0) + (simulate_deposition 4 4 (fun _ => 0) ⟨3 / 2, 3 / 2⟩ 1).2 :=
  simulate_deposition_mass_conservation 4 4 (fun _ => 0) ⟨3 / 2, 3 / 2⟩ 1
    (by norm_num) (by norm_num) (by norm_num [ctrunc]) (by norm_num [ctrunc]) (by norm_num)

/-- C10 counterexample: at the position `(-0.5, -0.5)` (truncation toward
zero gives cell `(0,0)` and negative fractional offsets, hence two negative
bilinear weights) the amount `-1` passes two of the guards
`to_drop * w > 0`, so the call returns `3/2`, not `0`. -/
theorem simulate_deposition_nonpos_counterexample :
    (simulate_deposition 2 2 (fun _ => 0) ⟨-1 / 2, -1 / 2⟩ (-1)).2 ≠ 0 := by
  have hX : ctrunc (-1 / 2 : ℚ) = 0 := by norm_num [ctrunc]
  simp only [simulate_deposition, depoStep]
  rw [hX]
  norm_num [EPSILON]

/-- C10 (amended): for every position with nonnegative coordinates (where
all four bilinear weights are nonnegative) and every `to_drop ≤ 0`,
`simulate_deposition` returns `0` and leaves the heightmap unchanged. -/
theorem simulate_deposition_nonpos_noop (width height : ℤ) (h : ℤ → ℚ)
    (pos : Vec2) (to_drop : ℚ)
    (hx0 : 0 ≤ pos.x) (hy0 : 0 ≤ pos.y) (htd : to_drop ≤ 0) :
    simulate_deposition width height h pos to_drop = (h, 0) :=
  simulate_deposition_nonpos width height h pos to_drop hx0 hy0 htd

/-- Concrete instance of `simulate_deposition_nonpos_noop`. -/
theorem simulate_deposition_nonpos_noop_witness :
    simulate_deposition 2 2 (fun _ => 0) ⟨1 / 2, 1 / 2⟩ (-1) = (fun _ => 0, 0) :=
  simulate_deposition_nonpos_noop 2 2 (fun _ => 0) ⟨1 / 2, 1 / 2⟩ (-1)
    (by norm_num) (by norm_num) (by norm_num)

/-- The residue loop of the `sediment >= h_diff` sub-branch of the uphill
case: `while (to_drop > EPSILON) to_drop -= simulate_deposition(..., old_pos,
drop.sediment);`.  Fuel makes the C `while` structurally total; `none`
models running out of fuel. -/
def depositLoopFixed (width height : ℤ) (pos : Vec2) (amt : ℚ) :
    ℕ → (ℤ → ℚ) → ℚ → Option ((ℤ → ℚ) × ℚ)
  | 0, h, v => if v > EPSILON then none else some (h, v)
  | fuel + 1, h, v =>
    if v > EPSILON then
      let r := simulate_deposition width height h pos amt
      depositLoopFixed width height pos amt fuel r.1 (v - r.2)
    else some (h, v)

/-- The residue loop of the `sediment < h_diff` sub-branch of the uphill
case: `while (drop.sediment > EPSILON) drop.sediment -=
simulate_deposition(..., old_pos, drop.sediment);`. -/
def depositLoopSelf (width height : ℤ) (pos : Vec2) :
    ℕ → (ℤ → ℚ) → ℚ → Option ((ℤ → ℚ) × ℚ)
  | 0, h, v => if v > EPSILON then none else some (h, v)
  | fuel + 1, h, v =>
    if v > EPSILON then
      let r := simulate_deposition width height h pos v
      depositLoopSelf width height pos fuel r.1 (v - r.2)
    else some (h, v)

/-- The `h_diff > 0.0` (uphill) branch of `simulate_drop`: when
`sediment >= h_diff` deposit `h_diff` at the old position and re-issue any
residue; otherwise deposit the whole sediment and re-issue any residue.
Both sub-branches end in `break`, recorded by the `true` flag of the
result (heightmap, remaining sediment, broke). -/
def uphill_branch (width height : ℤ) (fuel : ℕ) (h : ℤ → ℚ) (old_pos : Vec2)
    (sediment h_diff : ℚ) : Option ((ℤ → ℚ) × ℚ × Bool) :=
  if sediment ≥ h_diff then
    let r0 := simulate_deposition width height h old_pos h_diff
    match depositLoopFixed width height old_pos sediment fuel r0.1 (h_diff - r0.2) with
    | none => none
    | some (h1, _) => some (h1, sediment, true)
  else
    let r0 := simulate_deposition width height h old_pos sediment
    match depositLoopSelf width height old_pos fuel r0.1 (sediment - r0.2) with
    | none => none
    | some (h1, s1) => some (h1, s1, true)

theorem depositLoopFixed_zero (width height : ℤ) (pos : Vec2) (amt : ℚ)
    (fuel : ℕ) (h : ℤ → ℚ) :
    depositLoopFixed width height pos amt fuel h 0 = some (h, 0) := by
  cases fuel <;> norm_num [depositLoopFixed, EPSILON]

theorem depositLoopSelf_zero (width height : ℤ) (pos : Vec2)
    (fuel : ℕ) (h : ℤ → ℚ) :
    depositLoopSelf width height pos fuel h 0 = some (h, 0) := by
  cases fuel <;> norm_num [depositLoopSelf, EPSILON]

/-- C5: on an uphill move (`h_diff > 0`) from an interior old position with
nonnegative sediment, the branch deposits exactly `h_diff` when
`sediment >= h_diff` and exactly the whole sediment otherwise; in exact
arithmetic the first deposition places the full amount, so the residue
loops run zero iterations (the result is reached with any fuel, even 0),
and both sub-branches end in the hard `break` (flag `true`). -/
theorem uphill_deposit_hard_stop (width height : ℤ) (h : ℤ → ℚ) (pos : Vec2)
    (sediment h_diff : ℚ) (fuel : ℕ)
    (hx0 : 0 ≤ pos.x) (hy0 : 0 ≤ pos.y)
    (hxw : ctrunc pos.x + 1 ≤ width - 1) (hyh : ctrunc pos.y + 1 ≤ height - 1)
    (hsed : 0 ≤ sediment) (hdiff : 0 < h_diff) :
    ∃ h1 : ℤ → ℚ, ∃ s1 : ℚ,
      uphill_branch width height fuel h pos sediment h_diff = some (h1, s1, true) ∧
      gridTotal width height h1 =
        gridTotal width height h + (if sediment ≥ h_diff then h_diff else sediment) := by
  by_cases hge : sediment ≥ h_diff
  · obtain ⟨hr2, hrt⟩ :=
      simulate_deposition_adds width height h pos h_diff hx0 hy0 hxw hyh hdiff
    refine ⟨(simulate_deposition width height h pos h_diff).1, sediment, ?_, ?_⟩
    · simp only [uphill_branch, if_pos hge, hr2, sub_self, depositLoopFixed_zero]
    · rw [hrt, if_pos hge]
  · rcases lt_or_eq_of_le hsed with hspos | hszero
    · obtain ⟨hr2, hrt⟩ :=
        simulate_deposition_adds width height h pos sediment hx0 hy0 hxw hyh hspos
      refine ⟨(simulate_deposition width height h pos sediment).1, 0, ?_, ?_⟩
      · simp only [uphill_branch, if_neg hge, hr2, sub_self, depositLoopSelf_zero]
      · rw [hrt, if_neg hge]
    · subst hszero
      have hr : simulate_deposition width height h pos 0 = (h, 0) :=
        simulate_deposition_nonpos width height h pos 0 hx0 hy0 le_rfl
      refine ⟨h, 0, ?_, ?_⟩
      · simp only [uphill_branch, if_neg hge, hr, sub_zero, depositLoopSelf_zero]
      · rw [if_neg hge, add_zero]

/-- Concrete instance of `uphill_deposit_hard_stop` on a 4x4 zero grid:
sediment 2 covers the climb `h_diff = 1`, exactly 1 is deposited, and the
branch breaks. -/
theorem uphill_deposit_hard_stop_witness :
    ∃ h1 : ℤ → ℚ, ∃ s1 : ℚ,
      uphill_branch 4 4 5 (fun _ => 0) ⟨3 / 2, 3 / 2⟩ 2 1 = some (h1, s1, true) ∧
      gridTotal 4 4 h1 =
        gridTotal 4 4 (fun _ => 0) + (if (2 : ℚ) ≥ 1 then 1 else 2) :=
  uphill_deposit_hard_stop 4 4 (fun _ => 0) ⟨3 / 2, 3 / 2⟩ 2 1 5
    (by norm_num) (by norm_num) (by norm_num [ctrunc]) (by norm_num [ctrunc])
    (by norm_num) (by norm_num)

/-- The `while` condition of `simulate_drop` (line 357):
`drop.lifetime > 0 && verify_drop_pos(drop, width, height) && drop.water >
EPSILON`. -/
def drop_guard (width height : ℤ) (d : Drop) : Bool :=
  decide (0 < d.lifetime) && verify_drop_pos d width height && decide (EPSILON < d.water)

/-- The outer step loop of `simulate_drop`, with the per-step body
abstracted as `f` (it decrements the lifetime first and never touches it
again; `none` models a `break` out of the loop mid-body).  The result is
the number of iterations entered; `fuel` only makes the C `while`
structurally total. -/
def drop_loop (width height : ℤ) (f : Drop → Option Drop) : ℕ → Drop → ℕ
  | 0, _ => 0
  | fuel + 1, s =>
    if drop_guard width height s then
      match f s with
      | none => 1
      | some s' => drop_loop width height f fuel s' + 1
    else 0

/-- The fresh droplet built by `simulate_erosion_detailed` (lines 523-529)
before each `simulate_drop` call: random position, zero direction,
velocity 1, water 1, sediment 0, lifetime 1000. -/
def initial_drop (pos : Vec2) : Drop :=
  ⟨pos, ⟨0, 0⟩, 1000, 1, 1, 0⟩

/-- Any body that decrements the lifetime by one per entered step keeps
the iteration count of `drop_loop` at or below the starting lifetime. -/
theorem drop_loop_le_lifetime (width height : ℤ) (f : Drop → Option Drop)
    (hdec : ∀ t t' : Drop, f t = some t' → t'.lifetime = t.lifetime - 1) :
    ∀ (fuel : ℕ) (s : Drop), drop_loop width height f fuel s ≤ s.lifetime.toNat := by
  intro fuel
  induction fuel with
  | zero => intro s; exact Nat.zero_le _
  | succ n ih =>
    intro s
    show drop_loop width height f (n + 1) s ≤ s.lifetime.toNat
    rw [drop_loop]
    by_cases hg : drop_guard width height s = true
    · rw [if_pos hg]
      have hlt : 0 < s.lifetime := by
        have := hg
        unfold drop_guard at this
        simp only [Bool.and_eq_true, decide_eq_true_eq] at this
        exact this.1.1
      cases hfs : f s with
      | none =>
        show (1 : ℕ) ≤ s.lifetime.toNat
        omega
      | some s' =>
        show drop_loop width height f n s' + 1 ≤ s.lifetime.toNat
        have hstep := hdec s s' hfs
        have := ih s'
        omega
    · rw [if_neg hg]
      exact Nat.zero_le _

/-- C6: a droplet starts with the fixed lifetime 1000, the loop guard
requires `lifetime > 0`, a valid position and `water > EPSILON`, and the
body decrements the lifetime once at the start of each step, so every
simulated drop executes at most 1000 steps regardless of the rest of the
body's behavior. -/
theorem drop_lifetime_bound (width height : ℤ) (f : Drop → Option Drop)
    (pos : Vec2) (fuel : ℕ)
    (hdec : ∀ t t' : Drop, f t = some t' → t'.lifetime = t.lifetime - 1) :
    drop_loop width height f fuel (initial_drop pos) ≤ 1000 :=
  drop_loop_le_lifetime width height f hdec fuel (initial_drop pos)

/-- Concrete instance of `drop_lifetime_bound` with the body that only
performs the lifetime decrement. -/
theorem drop_lifetime_bound_witness :
    drop_loop 512 512
      (fun t => some ⟨t.position, t.direction, t.lifetime - 1, t.velocity, t.water, t.sediment⟩)
      2000 (initial_drop ⟨5, 5⟩) ≤ 1000 :=
  drop_lifetime_bound 512 512
    (fun t => some ⟨t.position, t.direction, t.lifetime - 1, t.velocity, t.water, t.sediment⟩)
    ⟨5, 5⟩ 2000
    (fun t t' h => by
      injection h with h1
      rw [← h1])

/-- One cell of the scale-pass min/max scan (lines 602-612): the two
independent comparisons `if (v > max) max = v; if (v < min) min = v`,
on the running pair (min, max). -/
def mmStep (f : ℕ → ℚ) (p : ℚ × ℚ) (i : ℕ) : ℚ × ℚ :=
  (if f i < p.1 then f i else p.1, if f i > p.2 then f i else p.2)

/-- The grid after the scale pass: every cell multiplied by `scale`. -/
def scaledGrid (hm : ℕ → ℚ) (scale : ℚ) : ℕ → ℚ := fun i => hm i * scale

/-- min/max of the scaled grid as the source computes them: both seeded
with scaled cell 0 (lines 600-601) and folded over all `n` cells. -/
def minmaxScan (f : ℕ → ℚ) (n : ℕ) : ℚ × ℚ :=
  (List.range n).foldl (mmStep f) (f 0, f 0)

/-- The normalization pass (lines 614-623): `v -= min; v /= (max - min);
v *= 255` per cell, with no guard on the divisor.  Under IEEE semantics a
zero divisor yields NaN (for the `0/0` of the degenerate all-equal grid)
or an infinity, modelled here by `none`. -/
def normalizePhase (hm : ℕ → ℚ) (scale : ℚ) (n : ℕ) : ℕ → Option ℚ :=
  fun i =>
    let f := scaledGrid hm scale
    let mm := minmaxScan f n
    if mm.2 - mm.1 = 0 then none
    else some ((f i - mm.1) / (mm.2 - mm.1) * 255)

/-- `generate_random_heightgaussian` with `num_bosses = 0`: the grid is
zero-initialized (lines 564-570), the bump loop never runs, and the scale
and normalization passes act on the all-zero grid of `width * height`
cells. -/
def generate_no_bosses (width height : ℕ) (scale : ℚ) : ℕ → Option ℚ :=
  normalizePhase (fun _ => 0) scale (width * height)

theorem mmScan_fst_le (f : ℕ → ℚ) :
    ∀ (l : List ℕ) (p : ℚ × ℚ),
      (l.foldl (mmStep f) p).1 ≤ p.1 ∧ ∀ i ∈ l, (l.foldl (mmStep f) p).1 ≤ f i := by
  intro l
  induction l with
  | nil =>
    intro p
    exact ⟨le_refl _, by simp⟩
  | cons a l ih =>
    intro p
    rw [List.foldl_cons]
    obtain ⟨h1, h2⟩ := ih (mmStep f p a)
    have hstep1 : (mmStep f p a).1 ≤ p.1 := by
      show (if f a < p.1 then f a else p.1) ≤ p.1
      by_cases hc : f a < p.1
      · rw [if_pos hc]
        exact le_of_lt hc
      · rw [if_neg hc]
    have hstep2 : (mmStep f p a).1 ≤ f a := by
      show (if f a < p.1 then f a else p.1) ≤ f a
      by_cases hc : f a < p.1
      · rw [if_pos hc]
      · rw [if_neg hc]
        exact not_lt.mp hc
    refine ⟨le_trans h1 hstep1, ?_⟩
    intro i hi
    rcases List.mem_cons.mp hi with rfl | hmem
    · exact le_trans h1 hstep2
    · exact h2 i hmem

theorem mmScan_snd_ge (f : ℕ → ℚ) :
    ∀ (l : List ℕ) (p : ℚ × ℚ),
      p.2 ≤ (l.foldl (mmStep f) p).2 ∧ ∀ i ∈ l, f i ≤ (l.foldl (mmStep f) p).2 := by
  intro l
  induction l with
  | nil =>
    intro p
    exact ⟨le_refl _, by simp⟩
  | cons a l ih =>
    intro p
    rw [List.foldl_cons]
    obtain ⟨h1, h2⟩ := ih (mmStep f p a)
    have hstep1 : p.2 ≤ (mmStep f p a).2 := by
      show p.2 ≤ (if f a > p.2 then f a else p.2)
      by_cases hc : f a > p.2
      · rw [if_pos hc]
        exact le_of_lt hc
      · rw [if_neg hc]
    have hstep2 : f a ≤ (mmStep f p a).2 := by
      show f a ≤ (if f a > p.2 then f a else p.2)
      by_cases hc : f a > p.2
      · rw [if_pos hc]
      · rw [if_neg hc]
        exact not_lt.mp hc
    refine ⟨le_trans hstep1 h1, ?_⟩
    intro i hi
    rcases List.mem_cons.mp hi with rfl | hmem
    · exact le_trans hstep2 h1
    · exact h2 i hmem

theorem mmScan_fst_attain (f : ℕ → ℚ) :
    ∀ (l : List ℕ) (p : ℚ × ℚ),
      (l.foldl (mmStep f) p).1 = p.1 ∨ ∃ i ∈ l, (l.foldl (mmStep f) p).1 = f i := by
  intro l
  induction l with
  | nil =>
    intro p
    exact Or.inl rfl
  | cons a l ih =>
    intro p
    rw [List.foldl_cons]
    rcases ih (mmStep f p a) with heq | ⟨i, hi, heq⟩
    · by_cases hc : f a < p.1
      · refine Or.inr ⟨a, List.mem_cons_self a l, ?_⟩
        rw [heq]
        show (if f a < p.1 then f a else p.1) = f a
        rw [if_pos hc]
      · refine Or.inl ?_
        rw [heq]
        show (if f a < p.1 then f a else p.1) = p.1
        rw [if_neg hc]
    · exact Or.inr ⟨i, List.mem_cons_of_mem a hi, heq⟩

theorem mmScan_snd_attain (f : ℕ → ℚ) :
    ∀ (l : List ℕ) (p : ℚ × ℚ),
      (l.foldl (mmStep f) p).2 = p.2 ∨ ∃ i ∈ l, (l.foldl (mmStep f) p).2 = f i := by
  intro l
  induction l with
  | nil =>
    intro p
    exact Or.inl rfl
  | cons a l ih =>
    intro p
    rw [List.foldl_cons]
    rcases ih (mmStep f p a) with heq | ⟨i, hi, heq⟩
    · by_cases hc : f a > p.2
      · refine Or.inr ⟨a, List.mem_cons_self a l, ?_⟩
        rw [heq]
        show (if f a > p.2 then f a else p.2) = f a
        rw [if_pos hc]
      · refine Or.inl ?_
        rw [heq]
        show (if f a > p.2 then f a else p.2) = p.2
        rw [if_neg hc]
    · exact Or.inr ⟨i, List.mem_cons_of_mem a hi, heq⟩

theorem minmaxScan_bounds (f : ℕ → ℚ) (n : ℕ) (i : ℕ) (hi : i < n) :
    (minmaxScan f n).1 ≤ f i ∧ f i ≤ (minmaxScan f n).2 := by
  unfold minmaxScan
  exact ⟨(mmScan_fst_le f (List.range n) (f 0, f 0)).2 i (List.mem_range.mpr hi),
         (mmScan_snd_ge f (List.range n) (f 0, f 0)).2 i (List.mem_range.mpr hi)⟩

theorem minmaxScan_attain (f : ℕ → ℚ) (n : ℕ) (hn : 0 < n) :
    (∃ i, i < n ∧ (minmaxScan f n).1 = f i) ∧
    (∃ i, i < n ∧ (minmaxScan f n).2 = f i) := by
  unfold minmaxScan
  constructor
  · rcases mmScan_fst_attain f (List.range n) (f 0, f 0) with heq | ⟨i, hi, heq⟩
    · exact ⟨0, hn, heq⟩
    · exact ⟨i, List.mem_range.mp hi, heq⟩
  · rcases mmScan_snd_attain f (List.range n) (f 0, f 0) with heq | ⟨i, hi, heq⟩
    · exact ⟨0, hn, heq⟩
    · exact ⟨i, List.mem_range.mp hi, heq⟩

/-- C7: whenever the scaled grid is not all equal (as happens for
`num_bosses > 0` barring floating ties), the normalization pass produces a
real value in `[0, 255]` at every cell, a cell where the scan minimum is
attained maps to `0`, and a cell where the scan maximum is attained maps
to `255`. -/
theorem normalize_range_attained (hm : ℕ → ℚ) (scale : ℚ) (n : ℕ)
    (hn : 0 < n)
    (hne : ∃ i, i < n ∧ ∃ j, j < n ∧ scaledGrid hm scale i ≠ scaledGrid hm scale j) :
    (∀ i, i < n → ∃ v, normalizePhase hm scale n i = some v ∧ 0 ≤ v ∧ v ≤ 255) ∧
    (∃ i, i < n ∧ normalizePhase hm scale n i = some 0) ∧
    (∃ i, i < n ∧ normalizePhase hm scale n i = some 255) := by
  set f := scaledGrid hm scale with hfdef
  set mn := (minmaxScan f n).1 with hmndef
  set mx := (minmaxScan f n).2 with hmxdef
  have hlt : mn < mx := by
    obtain ⟨i, hi, j, hj, hij⟩ := hne
    obtain ⟨hi1, hi2⟩ := minmaxScan_bounds f n i hi
    obtain ⟨hj1, hj2⟩ := minmaxScan_bounds f n j hj
    by_contra hc
    push_neg at hc
    exact hij (by linarith)
  have hd : mx - mn ≠ 0 := by linarith
  have hdpos : 0 < mx - mn := by linarith
  refine ⟨?_, ?_, ?_⟩
  · intro i hi
    obtain ⟨hi1, hi2⟩ := minmaxScan_bounds f n i hi
    refine ⟨(f i - mn) / (mx - mn) * 255, ?_, ?_, ?_⟩
    · simp only [normalizePhase, ← hfdef, ← hmndef, ← hmxdef, if_neg hd]
    · have hq : 0 ≤ (f i - mn) / (mx - mn) :=
        div_nonneg (by linarith) (le_of_lt hdpos)
      linarith
    · have hq : (f i - mn) / (mx - mn) ≤ 1 :=
        (div_le_one hdpos).mpr (by linarith)
      have hq0 : 0 ≤ (f i - mn) / (mx - mn) :=
        div_nonneg (by linarith) (le_of_lt hdpos)
      nlinarith
  · obtain ⟨⟨i, hi, hmin⟩, _⟩ := minmaxScan_attain f n hn
    refine ⟨i, hi, ?_⟩
    simp only [normalizePhase, ← hfdef, ← hmndef, ← hmxdef, if_neg hd]
    rw [← hmin]
    rw [sub_self, zero_div, zero_mul]
  · obtain ⟨_, ⟨i, hi, hmax⟩⟩ := minmaxScan_attain f n hn
    refine ⟨i, hi, ?_⟩
    simp only [normalizePhase, ← hfdef, ← hmndef, ← hmxdef, if_neg hd]
    rw [← hmax, div_self hd]
    norm_num

/-- Concrete instance of `normalize_range_attained` on the 2-cell grid
`0, 1` with scale `1`. -/
theorem normalize_range_attained_witness :
    (∀ i, i < 2 → ∃ v, normalizePhase (fun i => (i : ℚ)) 1 2 i = some v ∧ 0 ≤ v ∧ v ≤ 255) ∧
    (∃ i, i < 2 ∧ normalizePhase (fun i => (i : ℚ)) 1 2 i = some 0) ∧
    (∃ i, i < 2 ∧ normalizePhase (fun i => (i : ℚ)) 1 2 i = some 255) :=
  normalize_range_attained (fun i => (i : ℚ)) 1 2 (by norm_num)
    ⟨0, by norm_num, 1, by norm_num, by norm_num [scaledGrid]⟩

/-- C1: the source does not guard the division of the normalization pass.
With `num_bosses = 0` the scaled grid is all zero, `max = min = 0`, and
every cell is sent through `0 / 0`, an IEEE NaN (`none` in this model)
instead of the all-zero grid the specification requires. -/
theorem generate_no_bosses_nan :
    ∀ i : ℕ, generate_no_bosses 2 2 10 i = none := by
  intro i
  show normalizePhase (fun _ => 0) 10 (2 * 2) i = none
  simp only [normalizePhase]
  rw [if_pos]
  have : minmaxScan (scaledGrid (fun _ => 0) 10) (2 * 2) = (0, 0) := by
    norm_num [minmaxScan, mmStep, scaledGrid, List.range_succ]
  rw [this]
  norm_num

/-- Real-valued 2D vector: the erosion branch computes `sqrt` distances,
so this part of the embedding lives over `ℝ`. -/
structure Vec2R where
  x : ℝ
  y : ℝ

/-- C `(int)` cast of a `double`, on `ℝ`. -/
noncomputable def ctruncR (r : ℝ) : ℤ := if r < 0 then ⌈r⌉ else ⌊r⌋

/-- In-place `H(h,w,x,y) -= v` on a real heightmap. -/
def hmSubR (h : ℤ → ℝ) (w x y : ℤ) (v : ℝ) : ℤ → ℝ :=
  fun i => if i = y * w + x then h i - v else h i

/-- Total height of a real grid. -/
noncomputable def gridTotalR (w ht : ℤ) (h : ℤ → ℝ) : ℝ :=
  ∑ i ∈ Finset.Ico (0 : ℤ) (w * ht), h i

/-- The values `-radius, ..., radius` of one loop of lines 432-434. -/
def offsetRange (radius : ℤ) : List ℤ :=
  (List.range (2 * radius + 1).toNat).map fun a => (a : ℤ) - radius

/-- All offsets `(dx, dy)` of the erosion square, `dx` outer, `dy` inner. -/
def discOffsets (radius : ℤ) : List (ℤ × ℤ) :=
  (offsetRange radius).flatMap fun dx => (offsetRange radius).map fun dy => (dx, dy)

/-- One `struct weight` record. -/
structure WeightRec where
  used : Bool
  x : ℤ
  y : ℤ
  w : ℝ

/-- One weights-array entry (lines 437-451): truncate the absolute cell,
check it is in-bounds, then test `dist <= radius` with
`dist = sqrt(dx*dx + dy*dy)` and store the linear falloff
`radius - dist`; otherwise the entry is unused. -/
noncomputable def weight_entry (width height radius : ℤ) (pos : Vec2R)
    (d : ℤ × ℤ) : WeightRec :=
  let x := ctruncR (pos.x + (d.1 : ℝ))
  let y := ctruncR (pos.y + (d.2 : ℝ))
  if 0 ≤ x ∧ x < width ∧ 0 ≤ y ∧ y < height then
    let dist := Real.sqrt ((d.1 : ℝ) * (d.1 : ℝ) + (d.2 : ℝ) * (d.2 : ℝ))
    if dist ≤ (radius : ℝ) then ⟨true, x, y, (radius : ℝ) - dist⟩
    else ⟨false, x, y, 0⟩
  else ⟨false, x, y, 0⟩

/-- `total_weight`: sum of the weights of the used entries (line 449). -/
noncomputable def total_weight (width height radius : ℤ) (pos : Vec2R) : ℝ :=
  (((discOffsets radius).map (weight_entry width height radius pos)).map
    fun e => if e.used then e.w else 0).sum

/-- One iteration of the application loop (lines 461-478): for a used
entry subtract `quantity = gain * (w / total_weight) * 1` from the cell
and add it to the drop's sediment. -/
noncomputable def erodeStep (width : ℤ) (gain W : ℝ) (st : (ℤ → ℝ) × ℝ)
    (e : WeightRec) : (ℤ → ℝ) × ℝ :=
  if e.used = true then
    (hmSubR st.1 width e.x e.y (gain * (e.w / W) * 1), st.2 + gain * (e.w / W) * 1)
  else st

/-- The erosion branch of `simulate_drop` (lines 426-479): build the
weights of the disc, and if `total_weight > 0` apply the normalized
erosion to every used cell; otherwise mutate nothing. -/
noncomputable def erode_disc (width height radius : ℤ) (pos : Vec2R) (gain : ℝ)
    (h : ℤ → ℝ) (sediment : ℝ) : (ℤ → ℝ) × ℝ :=
  let entries := (discOffsets radius).map (weight_entry width height radius pos)
  let W := total_weight width height radius pos
  if W > 0 then entries.foldl (erodeStep width gain W) (h, sediment)
  else (h, sediment)

theorem weight_entry_used_bounds (width height radius : ℤ) (pos : Vec2R)
    (d : ℤ × ℤ) (hu : (weight_entry width height radius pos d).used = true) :
    0 ≤ (weight_entry width height radius pos d).x ∧
    (weight_entry width height radius pos d).x < width ∧
    0 ≤ (weight_entry width height radius pos d).y ∧
    (weight_entry width height radius pos d).y < height := by
  simp only [weight_entry] at hu ⊢
  split_ifs at hu ⊢ with h1 h2
  exact h1

theorem gridTotalR_hmSub (w ht x y : ℤ) (h : ℤ → ℝ) (v : ℝ)
    (hx0 : 0 ≤ x) (hx1 : x < w) (hy0 : 0 ≤ y) (hy1 : y < ht) :
    gridTotalR w ht (hmSubR h w x y v) = gridTotalR w ht h - v := by
  have hw : 0 < w := lt_of_le_of_lt hx0 hx1
  have hmem : y * w + x ∈ Finset.Ico (0 : ℤ) (w * ht) := by
    rw [Finset.mem_Ico]
    constructor
    · have := mul_nonneg hy0 (le_of_lt hw)
      linarith
    · have h1 : y * w ≤ (ht - 1) * w :=
        mul_le_mul_of_nonneg_right (by omega) (le_of_lt hw)
      nlinarith
  unfold gridTotalR hmSubR
  calc ∑ i ∈ Finset.Ico (0 : ℤ) (w * ht), (if i = y * w + x then h i - v else h i)
      = ∑ i ∈ Finset.Ico (0 : ℤ) (w * ht), (h i + if i = y * w + x then -v else 0) := by
        refine Finset.sum_congr rfl fun i _ => ?_
        split <;> simp [sub_eq_add_neg]
    _ = (∑ i ∈ Finset.Ico (0 : ℤ) (w * ht), h i) +
          ∑ i ∈ Finset.Ico (0 : ℤ) (w * ht), (if i = y * w + x then -v else 0) :=
        Finset.sum_add_distrib
    _ = (∑ i ∈ Finset.Ico (0 : ℤ) (w * ht), h i) - v := by
        rw [Finset.sum_ite_eq' _ (y * w + x) (fun _ => -v), if_pos hmem]
        ring

/-- Invariant of the application fold: starting from `(h, sed)`, after
processing a list of entries whose used cells are in-bounds, the grid
total has dropped by `gain * (usedWeightSum / W)` and the sediment has
risen by the same amount. -/
theorem erode_fold (width height : ℤ) (gain W : ℝ) :
    ∀ (l : List WeightRec) (h : ℤ → ℝ) (sed : ℝ),
      (∀ e ∈ l, e.used = true →
        0 ≤ e.x ∧ e.x < width ∧ 0 ≤ e.y ∧ e.y < height) →
      gridTotalR width height ((l.foldl (erodeStep width gain W) (h, sed)).1) =
        gridTotalR width height h -
          gain * (((l.map fun e => if e.used then e.w else 0).sum) / W) ∧
      (l.foldl (erodeStep width gain W) (h, sed)).2 =
        sed + gain * (((l.map fun e => if e.used then e.w else 0).sum) / W) := by
  intro l
  induction l with
  | nil =>
    intro h sed hb
    simp
  | cons e l ih =>
    intro h sed hb
    rw [List.foldl_cons, List.map_cons, List.sum_cons]
    by_cases hu : e.used = true
    · have hbe := hb e (List.mem_cons_self e l) hu
      have hstep : erodeStep width gain W (h, sed) e =
          (hmSubR h width e.x e.y (gain * (e.w / W) * 1), sed + gain * (e.w / W) * 1) := by
        unfold erodeStep
        rw [if_pos hu]
      rw [hstep]
      obtain ⟨iht, ihs⟩ := ih (hmSubR h width e.x e.y (gain * (e.w / W) * 1))
        (sed + gain * (e.w / W) * 1) (fun e' he' => hb e' (List.mem_cons_of_mem e he'))
      constructor
      · rw [iht, gridTotalR_hmSub width height e.x e.y h (gain * (e.w / W) * 1)
          hbe.1 hbe.2.1 hbe.2.2.1 hbe.2.2.2]
        rw [if_pos hu, add_div, mul_add]
        ring
      · rw [ihs, if_pos hu, add_div, mul_add]
        ring
    · have hstep : erodeStep width gain W (h, sed) e = (h, sed) := by
        unfold erodeStep
        rw [if_neg hu]
      rw [hstep]
      obtain ⟨iht, ihs⟩ := ih h sed (fun e' he' => hb e' (List.mem_cons_of_mem e he'))
      rw [if_neg hu]
      constructor
      · rw [iht]
        ring_nf
      · rw [ihs]
        ring_nf

/-- C4: whenever the disc's total falloff weight is strictly positive, the
erosion branch removes total height exactly equal to the computed gain
across the qualifying cells (each reduced by `gain * (w / totalWeight)`)
and credits exactly the same total to the drop's sediment; when the total
weight is zero, no cell is mutated and zero sediment is gained. -/
theorem erode_disc_mass_conservation (width height radius : ℤ) (pos : Vec2R)
    (gain : ℝ) (h : ℤ → ℝ) (sediment : ℝ) :
    (0 < total_weight width height radius pos →
      gridTotalR width height (erode_disc width height radius pos gain h sediment).1 =
        gridTotalR width height h - gain ∧
      (erode_disc width height radius pos gain h sediment).2 = sediment + gain) ∧
    (total_weight width height radius pos = 0 →
      erode_disc width height radius pos gain h sediment = (h, sediment)) := by
  constructor
  · intro hW
    have hbnd : ∀ e ∈ (discOffsets radius).map (weight_entry width height radius pos),
        e.used = true → 0 ≤ e.x ∧ e.x < width ∧ 0 ≤ e.y ∧ e.y < height := by
      intro e he hu
      obtain ⟨d, hd, rfl⟩ := List.mem_map.mp he
      exact weight_entry_used_bounds width height radius pos d hu
    obtain ⟨hT, hS⟩ := erode_fold width height gain (total_weight width height radius pos)
      ((discOffsets radius).map (weight_entry width height radius pos)) h sediment hbnd
    have hsum : (((discOffsets radius).map (weight_entry width height radius pos)).map
        fun e => if e.used then e.w else 0).sum = total_weight width height radius pos := rfl
    rw [hsum, div_self (ne_of_gt hW), mul_one] at hT hS
    simp only [erode_disc]
    rw [if_pos hW]
    exact ⟨hT, hS⟩
  · intro hW0
    simp only [erode_disc]
    rw [if_neg]
    rw [hW0]
    exact lt_irrefl 0

/-- Concrete instances of `erode_disc_mass_conservation`, one per branch:
with radius `1` at `(2.5, 2.5)` on a 6x6 grid the total weight is `1`
(center weight `1 - sqrt 0`, edge weights `1 - sqrt 1 = 0`, corners
excluded by `sqrt 2 > 1`) and erosion removes exactly the gain `1`; with
radius `0` the single entry has weight `0 - sqrt 0 = 0`, the total weight
is `0`, and nothing is mutated. -/
theorem erode_disc_mass_conservation_witness :
    (gridTotalR 6 6 (erode_disc 6 6 1 ⟨5 / 2, 5 / 2⟩ 1 (fun _ => 0) 0).1 =
       gridTotalR 6 6 (fun _ => 0) - 1 ∧
     (erode_disc 6 6 1 ⟨5 / 2, 5 / 2⟩ 1 (fun _ => 0) 0).2 = 0 + 1) ∧
    erode_disc 2 2 0 ⟨1 / 2, 1 / 2⟩ 5 (fun _ => 0) 0 = ((fun _ => 0 : ℤ → ℝ), (0 : ℝ)) := by
  constructor
  · have hW1 : total_weight 6 6 1 ⟨5 / 2, 5 / 2⟩ = 1 := by
      have ht3 : Int.toNat 3 = 3 := rfl
      have hr3 : List.range 3 = [0, 1, 2] := rfl
      have hs2 : ¬(Real.sqrt 2 ≤ 1) := by
        nlinarith [Real.sq_sqrt (show (0:ℝ) ≤ 2 by norm_num), Real.sqrt_nonneg 2]
      norm_num [total_weight, discOffsets, offsetRange, weight_entry, ctruncR,
        Real.sqrt_zero, Real.sqrt_one, ht3, hr3, hs2, List.flatMap_cons, List.flatMap_nil,
        List.map_cons, List.map_nil, List.sum_cons, List.sum_nil, Function.comp]
    exact (erode_disc_mass_conservation 6 6 1 ⟨5 / 2, 5 / 2⟩ 1 (fun _ => 0) 0).1
      (by rw [hW1]; norm_num)
  · have hW : total_weight 2 2 0 ⟨1 / 2, 1 / 2⟩ = 0 := by
      have hr1 : List.range 1 = [0] := rfl
      norm_num [total_weight, discOffsets, offsetRange, weight_entry, ctruncR,
        Real.sqrt_zero, hr1, List.flatMap_cons, List.flatMap_nil,
        List.map_cons, List.map_nil, List.sum_cons, List.sum_nil, Function.comp]
    exact (erode_disc_mass_conservation 2 2 0 ⟨1 / 2, 1 / 2⟩ 5 (fun _ => 0) 0).2 hW
